import Mathlib

/-!
Shallow embedding of `tools/simple_simulator_ja.py` (a click-cost simulator for
a Japanese predictive text-entry assistant) together with theorems checking the
natural-language specification against it.

Strings are modelled as lists of Unicode code points (`Str`); a surface token
is such a string.  External collaborators (the TinySegmenter tokenizer, the
MeCab reading lookup and the LLM suggestion oracle) enter as function
parameters collected in `Config`, exactly at the interfaces the script uses
them; everything downstream of those interfaces is translated from the Python
source line by line.
-/

namespace PV

/-- A string, as Python sees it: a list of Unicode code points. -/
abbrev Str := List Nat

/-- A surface token produced by the tokenizer (an opaque string). -/
abbrev Token := List Nat

/-- Code points of the whitespace characters stripped by Python `str.strip()`
and matched by the regex class backslash-s. -/
def isPySpace (c : Nat) : Bool :=
  (9 ≤ c && c ≤ 13) || (28 ≤ c && c ≤ 32) || c == 133 || c == 160 ||
  c == 0x1680 || (0x2000 ≤ c && c ≤ 0x200A) || c == 0x2028 || c == 0x2029 ||
  c == 0x202F || c == 0x205F || c == 0x3000

/-- Python `s.strip()`: drop whitespace from both ends. -/
def stripS (s : Str) : Str :=
  ((s.dropWhile isPySpace).reverse.dropWhile isPySpace).reverse

/-- Python `s.split(sep)` for a one-character separator, accumulator form. -/
def splitOnCGo (sep : Nat) : Str → Str → List Str
  | [], acc => [acc.reverse]
  | c :: rest, acc =>
      if c = sep then acc.reverse :: splitOnCGo sep rest []
      else splitOnCGo sep rest (c :: acc)

/-- Python `s.split(sep)` for a one-character separator. -/
def splitOnC (sep : Nat) (s : Str) : List Str :=
  splitOnCGo sep s []

/-- Python `s.splitlines()` for newline-terminated text: like splitting on the
newline character but with no entry after a final newline. -/
def pySplitlinesGo : Str → Str → List Str
  | [], acc => if acc = [] then [] else [acc.reverse]
  | c :: rest, acc =>
      if c = 10 then acc.reverse :: pySplitlinesGo rest []
      else pySplitlinesGo rest (c :: acc)

/-- Python `s.splitlines()` (newline-only variant, as produced by MeCab). -/
def pySplitlines (s : Str) : List Str :=
  pySplitlinesGo s []

/-- One code point of `katakana_to_hiragana`: shift the Katakana block
(U+30A1 to U+30F3 inclusive) down by 0x60, leave everything else alone. -/
def kat2hiraC (c : Nat) : Nat :=
  if 0x30A1 ≤ c ∧ c ≤ 0x30F3 then c - 0x60 else c

/-- `katakana_to_hiragana` from the source: character-wise conversion. -/
def katakana_to_hiragana (s : Str) : Str :=
  s.map kat2hiraC

/-- ASCII digit test, as in the regex class backslash-d for this input. -/
def isDigitC (c : Nat) : Bool :=
  48 ≤ c && c ≤ 57

/-- Python `re.match` of one-or-more digits followed by a dot, at the start of
the (already stripped) line. -/
def matchNumDot (s : Str) : Bool :=
  let ds := s.takeWhile isDigitC
  !ds.isEmpty && ((s.drop ds.length).head? == some 46)

/-- Python `re.sub` removing the leading digits, the dot and one optional
whitespace character (only ever applied to lines where `matchNumDot` holds). -/
def subNumDot (s : Str) : Str :=
  let rest := (s.dropWhile isDigitC).drop 1
  match rest with
  | c :: r => if isPySpace c then r else rest
  | [] => []

/-- Python `response_text.replace` deleting every backslash-newline pair,
scanning left to right without overlap. -/
def removeBackslashNl : Str → Str
  | [] => []
  | 92 :: 10 :: rest => removeBackslashNl rest
  | c :: rest => c :: removeBackslashNl rest

/-- The numbered-line extraction of `parse_response` (lines 59 to 65 of the
source): join continuation lines, split on newlines, keep the stripped lines
that start with a number and a dot, and strip that numbering off. -/
def extractLines (text : Str) : List Str :=
  (pySplitlines (removeBackslashNl text)).filterMap fun t =>
    let ts := stripS t
    if ts ≠ [] ∧ matchNumDot ts then some (subNumDot ts) else none

/-- A JSON value, the shape `json.loads` can return. -/
inductive Json where
  | null : Json
  | jbool : Bool → Json
  | jnum : Int → Json
  | jstr : Str → Json
  | jarr : List Json → Json
  | jobj : List (Str × Json) → Json

/-- Key lookup in a JSON object (Python `d[key]` after `key in d`). -/
def jlookup (fields : List (Str × Json)) (k : Str) : Option Json :=
  (fields.find? fun p => p.1 == k).map (·.2)

/-- Code points of the string `messages`. -/
def keyMessages : Str := [109, 101, 115, 115, 97, 103, 101, 115]

/-- Code points of the string `text`. -/
def keyText : Str := [116, 101, 120, 116]

/-- The structural access `response_data['messages'][0]['text']` guarded by
the shape checks of `parse_response`; any deviation from the expected shape
(including the cases Python would surface as a caught exception) is `none`. -/
def messagesText : Json → Option Str
  | Json.jobj fs =>
      match jlookup fs keyMessages with
      | some (Json.jarr (m :: _)) =>
          match m with
          | Json.jobj f2 =>
              match jlookup f2 keyText with
              | some (Json.jstr s) => some s
              | _ => none
          | _ => none
      | _ => none
  | _ => none

/-- `parse_response` from the source.  The JSON parser itself is external
(`json.loads`), passed in as `jp`; `none` is a parse failure
(`JSONDecodeError`).  Every error path of the Python function, including the
exception handlers, returns the empty list. -/
def parse_response (jp : Str → Option Json) (response : Str) : List Str :=
  if response = [] then []
  else
    match jp response with
    | none => []
    | some j =>
        match messagesText j with
        | none => []
        | some text => extractLines text

/-- `get_yomigana` from the source, with the MeCab tagger's raw parse output
supplied as the external function `mecabParse` (the tagger is present, as
`main` guarantees).  Returns `none` exactly where the Python function falls
off the end and returns `None` (parse output with no lines). -/
def get_yomigana (mecabParse : Str → Str) (tok : Str) : Option Str :=
  if stripS tok = [] then some []
  else
    match pySplitlines (mecabParse tok) with
    | [] => none
    | first :: _ =>
        if first = [69, 79, 83] then some (katakana_to_hiragana tok)
        else
          let parts := splitOnC 9 first
          if 1 < parts.length then
            let features := splitOnC 44 (parts.getD 1 [])
            if 7 < features.length ∧ features.getD 7 [] ≠ [42] then
              some (katakana_to_hiragana (features.getD 7 []))
            else if 0 < features.length ∧ parts.getD 0 [] = features.getD 0 [] ∧
                features.getD 0 [] ≠ [42] then
              some (katakana_to_hiragana (features.getD 0 []))
            else some (katakana_to_hiragana tok)
          else some (katakana_to_hiragana tok)

/-- `NUM_SENTENCE_SUGGESTIONS` from the source. -/
def NUM_SENTENCE_SUGGESTIONS : Nat := 2

/-- `INITIAL_PHRASES_JA` from the source, as code-point lists. -/
def INITIAL_PHRASES_JA : List Str :=
  [ [0x306F, 0x3044],
    [0x3044, 0x3044, 0x3048],
    [0x3042, 0x308A, 0x304C, 0x3068, 0x3046],
    [0x3059, 0x307F, 0x307E, 0x305B, 0x3093],
    [0x304A, 0x9858, 0x3044, 0x3057, 0x307E, 0x3059],
    [0x79C1],
    [0x3042, 0x306A, 0x305F],
    [0x5F7C],
    [0x5F7C, 0x5973],
    [0x4ECA, 0x65E5],
    [0x6628, 0x65E5],
    [0x660E, 0x65E5] ]

/-- `common_prefix` from the source: the longest common starting sequence of
two token lists. -/
def commonPrefix : List Token → List Token → List Token
  | t :: ts, u :: us => if t = u then t :: commonPrefix ts us else []
  | _, _ => []

/-- The external collaborators of `simulate_japanese`, at exactly the
interfaces the script consumes them:
`tokenize` is `tokenize_with_tinysegmenter` with a working segmenter,
`yomi` is `get_yomigana` with the MeCab tagger,
`sentSugg` and `wordSugg` are the parsed LLM suggestion lists returned by
`sentence_suggestions` (before its truncation) and `word_suggestions` for a
given context string. -/
structure Config where
  tokenize : Str → List Token
  yomi : Token → Str
  sentSugg : Str → List Str
  wordSugg : Str → List Str

/-- `sentence_suggestions` keeps only the first `NUM_SENTENCE_SUGGESTIONS`
parsed candidates. -/
def sentence_suggestions (cfg : Config) (ctx : Str) : List Str :=
  (cfg.sentSugg ctx).take NUM_SENTENCE_SUGGESTIONS

/-- `"".join(text_tokens)`. -/
def joinTokens (ts : List Token) : Str :=
  ts.flatten

/-- The mutable per-sentence state of `simulate_japanese`. -/
structure SimState where
  text_tokens : List Token
  total_clicks : Nat
  sentence_suggestion_used : Nat
  word_suggestion_used : Nat
  fallback_token_event_count : Nat
deriving DecidableEq

/-- One pass of the initial-phrase scan (source lines 265 to 276): keep the
running best match; a phrase replaces it when the target string starts with
the phrase, the phrase is strictly longer than the current best, and the
phrase's tokenization is a token-sequence prefix of the target's tokens. -/
def scanStep (tok : Str → List Token) (target : Str) (tt : List Token)
    (best : Str × List Token) (phrase : Str) : Str × List Token :=
  if phrase.isPrefixOf target then
    if best.1.length < phrase.length then
      let ct := tok phrase
      if tt.take ct.length = ct then (phrase, ct) else best
    else best
  else best

/-- The initial-phrase scan over a list of phrases. -/
def scanGo (tok : Str → List Token) (target : Str) (tt : List Token) :
    List Str → Str × List Token → Str × List Token
  | [], best => best
  | q :: rest, best => scanGo tok target tt rest (scanStep tok target tt best q)

/-- The full `INITIAL_PHRASES_JA` scan of `simulate_japanese`. -/
def scanPhrases (tok : Str → List Token) (target : Str) (tt : List Token) :
    Str × List Token :=
  scanGo tok target tt INITIAL_PHRASES_JA ([], [])

/-- Seeding phase of `simulate_japanese` (source lines 254 to 302): commit the
best initial phrase at 1 click (counted as a word suggestion), otherwise seed
with the target's first token at 2 clicks (counted as a fallback event);
`none` is the early `return [0,0,0,0,0]`. -/
def initialSeed (cfg : Config) (target : Str) (tt : List Token) :
    Option SimState :=
  let s := scanPhrases cfg.tokenize target tt
  if s.2 ≠ [] then some ⟨s.2, 1, 0, 1, 0⟩
  else if tt ≠ [] then some ⟨[tt.getD 0 []], 2, 0, 0, 1⟩
  else none

/-- The sentence-suggestion selection loop (source lines 312 to 322),
accumulator form: `sel` is `selected_sentence_tokens`, `longest` is
`longest_prefix_len`. -/
def selectSentenceGo (tok : Str → List Token) (tt : List Token)
    (text : List Token) :
    List Str → Option (List Token) → Nat → Option (List Token) × Nat
  | [], sel, longest => (sel, longest)
  | s :: rest, sel, longest =>
      let stoks := tok s
      if stoks = [] then selectSentenceGo tok tt text rest sel longest
      else
        let pre := commonPrefix tt stoks
        if longest < pre.length then
          if pre.take text.length = text then
            selectSentenceGo tok tt text rest (some pre) pre.length
          else selectSentenceGo tok tt text rest sel longest
        else selectSentenceGo tok tt text rest sel longest

/-- The selected sentence-candidate common prefix, if any. -/
def selectSentence (tok : Str → List Token) (tt : List Token)
    (text : List Token) (suggs : List Str) : Option (List Token) :=
  (selectSentenceGo tok tt text suggs none text.length).1

/-- The word-suggestion selection loop (source lines 343 to 361): the first
candidate whose non-empty tokenization fits inside the target and equals the
target slice right after the committed tokens wins. -/
def selectWord (tok : Str → List Token) (tt : List Token) (text : List Token) :
    List Str → Option (List Token)
  | [] => none
  | c :: rest =>
      let w := tok c
      if w = [] then selectWord tok tt text rest
      else if text.length + w.length ≤ tt.length ∧
          (tt.drop text.length).take w.length = w then some w
      else selectWord tok tt text rest

/-- The character-by-character typing loop of the phonetic fallback (source
lines 385 to 410): type one reading character at a time, querying the word
oracle after each; a candidate equal to the target token stops the loop at
cost typed-characters-plus-one.  Returns the cost and whether a suggestion
was taken. -/
def fbGo (ws : Str → List Str) (ctx : Str) (tgt : Token) :
    Str → Str → Nat → Nat × Bool
  | [], _, typed => (typed, false)
  | c :: rest, inp, typed =>
      let inp2 := inp ++ [c]
      let typed2 := typed + 1
      if (ws (ctx ++ inp2)).any (fun s => s == tgt) then (typed2 + 1, true)
      else fbGo ws ctx tgt rest inp2 typed2

/-- The whole phonetic-fallback step (source lines 373 to 420): take the next
required target token, type its reading with oracle re-checks, and commit it
either as a word-suggestion hit or as a direct-input (fallback) event. -/
def fallbackStep (cfg : Config) (tt : List Token) (st : SimState) : SimState :=
  let tgt := tt.getD st.text_tokens.length []
  let y := cfg.yomi tgt
  let r := fbGo cfg.wordSugg (joinTokens st.text_tokens) tgt y [] 0
  if r.2 then
    ⟨st.text_tokens ++ [tgt], st.total_clicks + r.1,
      st.sentence_suggestion_used, st.word_suggestion_used + 1,
      st.fallback_token_event_count⟩
  else
    ⟨st.text_tokens ++ [tgt], st.total_clicks + r.1,
      st.sentence_suggestion_used, st.word_suggestion_used,
      st.fallback_token_event_count + 1⟩

/-- One iteration of the main while loop of `simulate_japanese` (source lines
305 to 420).  The boolean is `true` when the loop continues and `false` when
it breaks. -/
def loopBody (cfg : Config) (target : Str) (tt : List Token) (st : SimState) :
    SimState × Bool :=
  let ctx := joinTokens st.text_tokens
  match selectSentence cfg.tokenize tt st.text_tokens
      (sentence_suggestions cfg ctx) with
  | some sel =>
      let st2 : SimState := ⟨sel, st.total_clicks + 1,
        st.sentence_suggestion_used + 1, st.word_suggestion_used,
        st.fallback_token_event_count⟩
      if joinTokens sel = target then (st2, false) else (st2, true)
  | none =>
      if st.text_tokens.length < tt.length then
        match selectWord cfg.tokenize tt st.text_tokens (cfg.wordSugg ctx) with
        | some w =>
            let st2 : SimState := ⟨st.text_tokens ++ w, st.total_clicks + 1,
              st.sentence_suggestion_used, st.word_suggestion_used + 1,
              st.fallback_token_event_count⟩
            if joinTokens st2.text_tokens = target then (st2, false)
            else (st2, true)
        | none => (fallbackStep cfg tt st, true)
      else (st, false)

/-- The main while loop, fuel-indexed.  The loop condition is checked at the
top of every iteration, exactly as `while text_tokens != target_tokens`. -/
def runLoop (cfg : Config) (target : Str) (tt : List Token) :
    Nat → SimState → SimState
  | 0, st => st
  | fuel + 1, st =>
      if st.text_tokens = tt then st
      else
        let r := loopBody cfg target tt st
        if r.2 then runLoop cfg target tt fuel r.1 else r.1

/-- Target tokenization including the character-split rescue of source lines
244 to 246. -/
def targetTokensOf (cfg : Config) (target : Str) : List Token :=
  let tt0 := cfg.tokenize target
  if tt0 = [] ∧ target ≠ [] then target.map (fun c => [c]) else tt0

/-- `simulate_japanese` from the source (given working adapters): returns
`[total_clicks, sentence_suggestion_used, word_suggestion_used,
fallback_token_event_count, target_char_len]`.  Every continuing loop
iteration strictly grows `text_tokens`, which stays at most as long as the
target tokens, so fuel one beyond the target length is never exhausted. -/
def simulate_japanese (cfg : Config) (target : Str) : List Nat :=
  let tt := targetTokensOf cfg target
  if tt = [] then [0, 0, 0, 0, 0]
  else
    match initialSeed cfg target tt with
    | none => [0, 0, 0, 0, 0]
    | some st0 =>
        let fin := runLoop cfg target tt (tt.length + 1) st0
        [fin.total_clicks, fin.sentence_suggestion_used,
          fin.word_suggestion_used, fin.fallback_token_event_count,
          (joinTokens tt).length]

/-- The matching test applied to one phrase by source lines 265 to 272: the
target string starts with the phrase and the phrase's tokenization is a
token-sequence prefix of the target's tokens. -/
def phraseAccepted (tok : Str → List Token) (target : Str) (tt : List Token)
    (q : Str) : Prop :=
  q.isPrefixOf target = true ∧ tt.take (tok q).length = tok q

instance (tok : Str → List Token) (target : Str) (tt : List Token) (q : Str) :
    Decidable (phraseAccepted tok target tt q) := by
  unfold phraseAccepted
  infer_instance

/-- The acceptance test applied to one word-mode candidate by source lines
345 to 350: non-empty tokenization that fits inside the target tokens and
equals the target slice aligned right after the committed tokens. -/
def wordAccepts (tok : Str → List Token) (tt text : List Token) (c : Str) :
    Prop :=
  tok c ≠ [] ∧ text.length + (tok c).length ≤ tt.length ∧
    (tt.drop text.length).take (tok c).length = tok c

instance (tok : Str → List Token) (tt text : List Token) (c : Str) :
    Decidable (wordAccepts tok tt text c) := by
  unfold wordAccepts
  infer_instance

/-- The oracle-hit test of the fallback typing loop after `k` typed reading
characters of the next required target token (source lines 394 to 398). -/
def fallbackHit (cfg : Config) (tt : List Token) (st : SimState) (k : Nat) :
    Prop :=
  ((cfg.wordSugg (joinTokens st.text_tokens ++
      (cfg.yomi (tt.getD st.text_tokens.length [])).take k)).any
    (fun s => s == tt.getD st.text_tokens.length [])) = true

instance (cfg : Config) (tt : List Token) (st : SimState) (k : Nat) :
    Decidable (fallbackHit cfg tt st k) := by
  unfold fallbackHit
  infer_instance

/-! ### The batch aggregation of `main` -/

/-- The per-batch accumulators of `main` (source lines 430 to 435). -/
structure AggTotals where
  total_target_char_length : Nat
  cumulative_total_clicks : Nat
  total_sentence_count : Nat
  total_word_count : Nat
  total_fallback_event_count : Nat
deriving DecidableEq

/-- One accumulation step of `main` (source lines 475 to 479), with the
stats list unpacked as `clicks, s_count, w_count, fb_count, target_len`. -/
def addStats (a : AggTotals) (s : List Nat) : AggTotals :=
  ⟨a.total_target_char_length + s.getD 4 0,
    a.cumulative_total_clicks + s.getD 0 0,
    a.total_sentence_count + s.getD 1 0,
    a.total_word_count + s.getD 2 0,
    a.total_fallback_event_count + s.getD 3 0⟩

/-- The accumulation loop of `main` over one batch (source lines 457 to
484): each line yields either its stats list or `none` (simulation returned
no stats).  The accumulation runs outside the `if stats is not None` guard,
so on a `none` line Python still adds the variables unpacked from the
previous line; a `none` line before any successful one references unassigned
variables (`NameError`), which kills the whole batch: modelled as `none`. -/
def mainAggGo : Option (List Nat) → AggTotals → List (Option (List Nat)) →
    Option AggTotals
  | _, acc, [] => some acc
  | last, acc, line :: rest =>
      match line with
      | some stz => mainAggGo (some stz) (addStats acc stz) rest
      | none =>
          match last with
          | none => none
          | some stz => mainAggGo (some stz) (addStats acc stz) rest

/-- The batch totals `main` reports. -/
def mainAgg (batch : List (Option (List Nat))) : Option AggTotals :=
  mainAggGo none ⟨0, 0, 0, 0, 0⟩ batch

/-- Modelled from the spec: the aggregation the specification describes for
`main`, summing the statistics of exactly the successfully simulated
sentences and excluding failed lines. -/
def specAggOfSuccesses (batch : List (Option (List Nat))) : AggTotals :=
  batch.foldl
    (fun acc line =>
      match line with
      | some stz => addStats acc stz
      | none => acc)
    ⟨0, 0, 0, 0, 0⟩

/-- The keystroke baseline accumulated by `main` (source line 481): summed
length of the whole-sentence yomigana of every processed line, the sentence
reading being supplied by the external MeCab adapter `sentYomi`. -/
def total_keyboard_input_of (sentYomi : Str → Str) (targets : List Str) :
    Nat :=
  (targets.map (fun t => (sentYomi t).length)).sum

/-! ### Concrete instantiations used by witnesses and counterexamples -/

/-- Character-level tokenizer: every code point is its own token. -/
def tokC (s : Str) : List Token := s.map (fun c => [c])

/-- Whole-string tokenizer: any non-empty string is a single token. -/
def tokS (s : Str) : List Token := if s = [] then [] else [s]

/-- Concrete configuration: the sentence oracle always offers the sentence
`1,2,3`; the word oracle is silent. -/
def cfg1 : Config := ⟨tokC, fun t => t, fun _ => [[1, 2, 3]], fun _ => []⟩

/-- Concrete configuration: silent sentence oracle; the word oracle returns
a single empty-string candidate. -/
def cfgC2 : Config := ⟨tokC, fun t => t, fun _ => [], fun _ => [[]]⟩

/-- Concrete configuration: every reading is the one-character string `5`
and the word oracle always suggests the token `9`. -/
def cfg3 : Config := ⟨tokC, fun _ => [5], fun _ => [], fun _ => [[9]]⟩

/-- Concrete configuration with a completely silent oracle and identity
readings (hiragana reads as itself). -/
def cfgJ : Config := ⟨tokS, fun t => t, fun _ => [], fun _ => []⟩

/-- Concrete configuration with a completely silent oracle, character
tokenizer and identity readings. -/
def cfg6 : Config := ⟨tokC, fun t => t, fun _ => [], fun _ => []⟩

/-- A consistent instantiation of the external whole-sentence reading
adapter: hiragana text reads as itself. -/
def sentYomiId : Str → Str := fun s => s

/-- Concrete configuration whose reading lookup, like `get_yomigana`, maps
whitespace-only tokens to the empty reading. -/
def cfgW : Config :=
  ⟨tokS, fun t => if stripS t = [] then [] else t, fun _ => [], fun _ => []⟩

/-! ### Basic list helpers -/

theorem drop_eq_getD_cons {α : Type} :
    ∀ (l : List α) (n : Nat) (d : α), n < l.length →
      l.drop n = l.getD n d :: l.drop (n + 1)
  | [], n, d, h => by simp at h
  | a :: l, 0, d, _ => rfl
  | a :: l, n + 1, d, h => by
      simp only [List.drop_succ_cons, List.getD_cons_succ]
      exact drop_eq_getD_cons l n d (by simpa using h)

theorem take_succ_getD {α : Type} (l : List α) (n : Nat) (d : α)
    (h : n < l.length) : l.take (n + 1) = l.take n ++ [l.getD n d] := by
  induction l generalizing n with
  | nil => simp at h
  | cons a l ih =>
      cases n with
      | zero => rfl
      | succ n =>
          simp only [List.take_succ_cons, List.getD_cons_succ, List.cons_append]
          rw [ih n (by simpa using h)]

theorem prefix_length_lt_of_ne {α : Type} {l₁ l₂ : List α}
    (h : l₁ <+: l₂) (hne : l₁ ≠ l₂) : l₁.length < l₂.length := by
  rcases Nat.lt_or_ge l₁.length l₂.length with hlt | hge
  · exact hlt
  · exact absurd (List.IsPrefix.eq_of_length h
      (Nat.le_antisymm h.length_le hge)) hne

theorem prefix_append_slice (text tt : List Token) (n : Nat)
    (h : text <+: tt) :
    text ++ (tt.drop text.length).take n <+: tt := by
  have ht : text = tt.take text.length := List.prefix_iff_eq_take.mp h
  have : text ++ (tt.drop text.length).take n = tt.take (text.length + n) := by
    rw [List.take_add]
    exact congrArg (· ++ (tt.drop text.length).take n) ht
  rw [this]
  exact List.take_prefix _ _

theorem prefix_append_next (text tt : List Token)
    (h : text <+: tt) (hlt : text.length < tt.length) :
    text ++ [tt.getD text.length []] <+: tt := by
  have h1 : (tt.drop text.length).take 1 = [tt.getD text.length []] := by
    rw [drop_eq_getD_cons tt text.length [] hlt]
    rfl
  have := prefix_append_slice text tt 1 h
  rwa [h1] at this

theorem ite_pair_fst {α β : Type} (c : Prop) [Decidable c] (a : α) (x y : β) :
    (if c then (a, x) else (a, y)).1 = a := by
  split <;> rfl

/-! ### `commonPrefix` lemmas -/

theorem commonPrefix_nil_left (ys : List Token) : commonPrefix [] ys = [] := by
  cases ys <;> rfl

theorem commonPrefix_nil_right (xs : List Token) : commonPrefix xs [] = [] := by
  cases xs <;> rfl

theorem commonPrefix_cons (t : Token) (ts : List Token) (u : Token)
    (us : List Token) :
    commonPrefix (t :: ts) (u :: us) =
      if t = u then t :: commonPrefix ts us else [] := rfl

/-- The common prefix is a prefix of the target token list. -/
theorem commonPrefix_prefix_left : ∀ (xs ys : List Token), commonPrefix xs ys <+: xs := by
  intro xs
  induction xs with
  | nil => intro ys; rw [commonPrefix_nil_left]
  | cons t ts ih =>
      intro ys
      cases ys with
      | nil => rw [commonPrefix_nil_right]; exact List.nil_prefix
      | cons u us =>
          rw [commonPrefix_cons]
          by_cases h : t = u
          · rw [if_pos h]
            exact (List.prefix_cons_inj t).mpr (ih us)
          · rw [if_neg h]
            exact List.nil_prefix

/-! ### Sentence-selection lemmas -/

theorem selectSentenceGo_longest_le (tok : Str → List Token)
    (tt text : List Token) :
    ∀ (suggs : List Str) (sel : Option (List Token)) (longest : Nat),
      longest ≤ (selectSentenceGo tok tt text suggs sel longest).2 := by
  intro suggs
  induction suggs with
  | nil => intro sel longest; simp [selectSentenceGo]
  | cons s rest ih =>
      intro sel longest
      simp only [selectSentenceGo]
      split
      · exact ih sel longest
      · split
        · split
          · exact le_trans (le_of_lt (by assumption)) (ih _ _)
          · exact ih sel longest
        · exact ih sel longest

/-- Facts about any selected sentence prefix: it has the recorded length, it
strictly extends the committed tokens, it is a prefix of the target tokens,
it starts with the committed tokens, and it is the common prefix of some
candidate (unless it was already selected on entry). -/
theorem selectSentenceGo_spec (tok : Str → List Token) (tt text : List Token) :
    ∀ (suggs : List Str) (sel : Option (List Token)) (longest : Nat),
      text.length ≤ longest →
      (∀ s0, sel = some s0 → s0.length = longest ∧ text.length < s0.length ∧
        s0 <+: tt ∧ s0.take text.length = text) →
      ∀ out, (selectSentenceGo tok tt text suggs sel longest).1 = some out →
        out.length = (selectSentenceGo tok tt text suggs sel longest).2 ∧
        text.length < out.length ∧ out <+: tt ∧ out.take text.length = text ∧
        ((∃ c ∈ suggs, out = commonPrefix tt (tok c)) ∨ sel = some out) := by
  intro suggs
  induction suggs with
  | nil =>
      intro sel longest _ hsel out hout
      simp only [selectSentenceGo] at hout ⊢
      obtain ⟨h1, h2, h3, h4⟩ := hsel out hout
      exact ⟨h1, h2, h3, h4, Or.inr hout⟩
  | cons s rest ih =>
      intro sel longest hlon hsel out hout
      simp only [selectSentenceGo] at hout ⊢
      by_cases c1 : tok s = []
      · rw [if_pos c1] at hout ⊢
        obtain ⟨h1, h2, h3, h4, h5⟩ := ih sel longest hlon hsel out hout
        refine ⟨h1, h2, h3, h4, ?_⟩
        rcases h5 with ⟨c, hc, hco⟩ | h5
        · exact Or.inl ⟨c, List.mem_cons_of_mem _ hc, hco⟩
        · exact Or.inr h5
      · rw [if_neg c1] at hout ⊢
        by_cases c2 : longest < (commonPrefix tt (tok s)).length
        · rw [if_pos c2] at hout ⊢
          by_cases c3 : (commonPrefix tt (tok s)).take text.length = text
          · rw [if_pos c3] at hout ⊢
            have hacc : ∀ s0, some (commonPrefix tt (tok s)) = some s0 →
                s0.length = (commonPrefix tt (tok s)).length ∧
                text.length < s0.length ∧ s0 <+: tt ∧
                s0.take text.length = text := by
              intro s0 hs0
              cases hs0
              exact ⟨rfl, lt_of_le_of_lt hlon c2,
                commonPrefix_prefix_left tt (tok s), c3⟩
            have hlon2 : text.length ≤ (commonPrefix tt (tok s)).length :=
              le_trans hlon (le_of_lt c2)
            obtain ⟨h1, h2, h3, h4, h5⟩ := ih _ _ hlon2 hacc out hout
            refine ⟨h1, h2, h3, h4, ?_⟩
            rcases h5 with ⟨c, hc, hco⟩ | h5
            · exact Or.inl ⟨c, List.mem_cons_of_mem _ hc, hco⟩
            · cases h5
              exact Or.inl ⟨s, List.mem_cons_self _ _, rfl⟩
          · rw [if_neg c3] at hout ⊢
            obtain ⟨h1, h2, h3, h4, h5⟩ := ih sel longest hlon hsel out hout
            refine ⟨h1, h2, h3, h4, ?_⟩
            rcases h5 with ⟨c, hc, hco⟩ | h5
            · exact Or.inl ⟨c, List.mem_cons_of_mem _ hc, hco⟩
            · exact Or.inr h5
        · rw [if_neg c2] at hout ⊢
          obtain ⟨h1, h2, h3, h4, h5⟩ := ih sel longest hlon hsel out hout
          refine ⟨h1, h2, h3, h4, ?_⟩
          rcases h5 with ⟨c, hc, hco⟩ | h5
          · exact Or.inl ⟨c, List.mem_cons_of_mem _ hc, hco⟩
          · exact Or.inr h5

/-- The recorded longest-prefix length dominates the common prefix of every
candidate, provided the committed tokens are a prefix of the target tokens
(which makes the source's start-alignment re-check automatic). -/
theorem selectSentenceGo_max (tok : Str → List Token) (tt text : List Token)
    (hpre : text <+: tt) :
    ∀ (suggs : List Str) (sel : Option (List Token)) (longest : Nat),
      text.length ≤ longest →
      ∀ c ∈ suggs, (commonPrefix tt (tok c)).length ≤
        (selectSentenceGo tok tt text suggs sel longest).2 := by
  intro suggs
  induction suggs with
  | nil => intro sel longest _ c hc; simp at hc
  | cons s rest ih =>
      intro sel longest hlon c hc
      simp only [selectSentenceGo]
      by_cases c1 : tok s = []
      · rw [if_pos c1]
        rcases List.mem_cons.mp hc with rfl | hc2
        · rw [c1, commonPrefix_nil_right]
          simp only [List.length_nil]
          exact Nat.zero_le _
        · exact ih sel longest hlon c hc2
      · rw [if_neg c1]
        by_cases c2 : longest < (commonPrefix tt (tok s)).length
        · have c3 : (commonPrefix tt (tok s)).take text.length = text := by
            have hp2 : text <+: commonPrefix tt (tok s) :=
              List.prefix_of_prefix_length_le hpre
                (commonPrefix_prefix_left tt (tok s))
                (le_trans hlon (le_of_lt c2))
            exact (List.prefix_iff_eq_take.mp hp2).symm
          rw [if_pos c2, if_pos c3]
          rcases List.mem_cons.mp hc with rfl | hc2
          · exact selectSentenceGo_longest_le tok tt text rest _ _
          · exact ih _ _ (le_trans hlon (le_of_lt c2)) c hc2
        · rw [if_neg c2]
          rcases List.mem_cons.mp hc with rfl | hc2
          · exact le_trans (Nat.le_of_not_lt c2)
              (selectSentenceGo_longest_le tok tt text rest sel longest)
          · exact ih sel longest hlon c hc2

/-! ### Word-selection lemmas -/

/-- A selected word candidate is the first accepted one, in oracle order. -/
theorem selectWord_some (tok : Str → List Token) (tt text : List Token) :
    ∀ (cands : List Str) (w : List Token),
      selectWord tok tt text cands = some w →
      ∃ L1 c L2, cands = L1 ++ c :: L2 ∧ wordAccepts tok tt text c ∧
        w = tok c ∧ ∀ c2 ∈ L1, ¬ wordAccepts tok tt text c2 := by
  intro cands
  induction cands with
  | nil => intro w hw; simp [selectWord] at hw
  | cons c rest ih =>
      intro w hw
      simp only [selectWord] at hw
      by_cases h1 : tok c = []
      · rw [if_pos h1] at hw
        obtain ⟨L1, c2, L2, hsplit, hacc, hweq, hmiss⟩ := ih w hw
        refine ⟨c :: L1, c2, L2, by rw [hsplit]; rfl, hacc, hweq, ?_⟩
        intro c3 hc3
        rcases List.mem_cons.mp hc3 with rfl | hc3
        · intro hacc3; exact hacc3.1 h1
        · exact hmiss c3 hc3
      · rw [if_neg h1] at hw
        by_cases h2 : text.length + (tok c).length ≤ tt.length ∧
            (tt.drop text.length).take (tok c).length = tok c
        · rw [if_pos h2] at hw
          cases hw
          exact ⟨[], c, rest, rfl, ⟨h1, h2.1, h2.2⟩, rfl, by simp⟩
        · rw [if_neg h2] at hw
          obtain ⟨L1, c2, L2, hsplit, hacc, hweq, hmiss⟩ := ih w hw
          refine ⟨c :: L1, c2, L2, by rw [hsplit]; rfl, hacc, hweq, ?_⟩
          intro c3 hc3
          rcases List.mem_cons.mp hc3 with rfl | hc3
          · intro hacc3; exact h2 ⟨hacc3.2.1, hacc3.2.2⟩
          · exact hmiss c3 hc3

/-- No word candidate is selected exactly when none passes the acceptance
test. -/
theorem selectWord_none (tok : Str → List Token) (tt text : List Token) :
    ∀ cands : List Str,
      selectWord tok tt text cands = none ↔
        ∀ c ∈ cands, ¬ wordAccepts tok tt text c := by
  intro cands
  induction cands with
  | nil => simp [selectWord]
  | cons c rest ih =>
      simp only [selectWord]
      by_cases h1 : tok c = []
      · rw [if_pos h1]
        constructor
        · intro hnone c2 hc2
          rcases List.mem_cons.mp hc2 with rfl | hc2
          · intro hacc; exact hacc.1 h1
          · exact ih.mp hnone c2 hc2
        · intro hall
          exact ih.mpr fun c2 hc2 => hall c2 (List.mem_cons_of_mem _ hc2)
      · rw [if_neg h1]
        by_cases h2 : text.length + (tok c).length ≤ tt.length ∧
            (tt.drop text.length).take (tok c).length = tok c
        · rw [if_pos h2]
          constructor
          · intro hnone; cases hnone
          · intro hall
            exact absurd ⟨h1, h2.1, h2.2⟩ (hall c (List.mem_cons_self _ _))
        · rw [if_neg h2]
          constructor
          · intro hnone c2 hc2
            rcases List.mem_cons.mp hc2 with rfl | hc2
            · intro hacc; exact h2 ⟨hacc.2.1, hacc.2.2⟩
            · exact ih.mp hnone c2 hc2
          · intro hall
            exact ih.mpr fun c2 hc2 => hall c2 (List.mem_cons_of_mem _ hc2)

/-! ### Phonetic-fallback typing-loop lemmas -/

/-- If no prefix of the remaining reading triggers an oracle hit, the whole
reading is typed: cost is one click per character and no suggestion is
taken. -/
theorem fbGo_not_hit (ws : Str → List Str) (ctx : Str) (tgt : Token) :
    ∀ (rest inp : Str) (typed : Nat),
      (∀ j, j ≤ rest.length → 1 ≤ j →
        ((ws (ctx ++ (inp ++ rest.take j))).any (fun s => s == tgt)) = false) →
      fbGo ws ctx tgt rest inp typed = (typed + rest.length, false) := by
  intro rest
  induction rest with
  | nil => intro inp typed _; simp [fbGo]
  | cons c rest ih =>
      intro inp typed hmiss
      have h1 : ((ws (ctx ++ (inp ++ [c]))).any (fun s => s == tgt)) = false := by
        have := hmiss 1 (by simp) (le_refl 1)
        simpa using this
      simp only [fbGo, h1, Bool.false_eq_true, if_false]
      have hmiss2 : ∀ j, j ≤ rest.length → 1 ≤ j →
          ((ws (ctx ++ ((inp ++ [c]) ++ rest.take j))).any
            (fun s => s == tgt)) = false := by
        intro j hj h1j
        have := hmiss (j + 1) (by simp; omega) (by omega)
        rw [List.take_succ_cons] at this
        rwa [show inp ++ c :: rest.take j = (inp ++ [c]) ++ rest.take j by
          simp] at this
      rw [ih (inp ++ [c]) (typed + 1) hmiss2]
      have : typed + 1 + rest.length = typed + (c :: rest).length := by
        simp only [List.length_cons]; omega
      rw [this]

/-- If the first oracle hit happens after `k` typed characters, the loop
stops there with cost `k + 1` and a suggestion taken. -/
theorem fbGo_first_hit (ws : Str → List Str) (ctx : Str) (tgt : Token) :
    ∀ (rest inp : Str) (typed k : Nat), 1 ≤ k → k ≤ rest.length →
      ((ws (ctx ++ (inp ++ rest.take k))).any (fun s => s == tgt)) = true →
      (∀ j, j < k → 1 ≤ j →
        ((ws (ctx ++ (inp ++ rest.take j))).any (fun s => s == tgt)) = false) →
      fbGo ws ctx tgt rest inp typed = (typed + k + 1, true) := by
  intro rest
  induction rest with
  | nil => intro inp typed k hk1 hkle _ _; simp at hkle; omega
  | cons c rest ih =>
      intro inp typed k hk1 hkle hhit hmiss
      cases k with
      | zero => omega
      | succ k =>
          cases Nat.eq_zero_or_pos k with
          | inl hk0 =>
              subst hk0
              have h1 : ((ws (ctx ++ (inp ++ [c]))).any
                  (fun s => s == tgt)) = true := by
                simpa using hhit
              simp only [fbGo, h1, if_true]
          | inr hkpos =>
              have h1 : ((ws (ctx ++ (inp ++ [c]))).any
                  (fun s => s == tgt)) = false := by
                have := hmiss 1 (by omega) (le_refl 1)
                simpa using this
              simp only [fbGo, h1, Bool.false_eq_true, if_false]
              have hhit2 : ((ws (ctx ++ ((inp ++ [c]) ++ rest.take k))).any
                  (fun s => s == tgt)) = true := by
                rw [List.take_succ_cons] at hhit
                rwa [show inp ++ c :: rest.take k = (inp ++ [c]) ++ rest.take k
                  by simp] at hhit
              have hmiss2 : ∀ j, j < k → 1 ≤ j →
                  ((ws (ctx ++ ((inp ++ [c]) ++ rest.take j))).any
                    (fun s => s == tgt)) = false := by
                intro j hj h1j
                have := hmiss (j + 1) (by omega) (by omega)
                rw [List.take_succ_cons] at this
                rwa [show inp ++ c :: rest.take j = (inp ++ [c]) ++ rest.take j
                  by simp] at this
              rw [ih (inp ++ [c]) (typed + 1) k hkpos (by simpa using hkle)
                hhit2 hmiss2]
              have : typed + 1 + k + 1 = typed + (k + 1) + 1 := by omega
              rw [this]

/-! ### Initial-phrase scan lemmas -/

theorem scanStep_cases (tok : Str → List Token) (target : Str)
    (tt : List Token) (b : Str × List Token) (q : Str) :
    (scanStep tok target tt b q = b ∧
      (phraseAccepted tok target tt q → q.length ≤ b.1.length)) ∨
    (scanStep tok target tt b q = (q, tok q) ∧
      phraseAccepted tok target tt q ∧ b.1.length < q.length) := by
  unfold scanStep
  by_cases h1 : q.isPrefixOf target = true
  · rw [if_pos h1]
    by_cases h2 : b.1.length < q.length
    · rw [if_pos h2]
      by_cases h3 : tt.take (tok q).length = tok q
      · rw [if_pos h3]; exact Or.inr ⟨rfl, ⟨h1, h3⟩, h2⟩
      · rw [if_neg h3]
        exact Or.inl ⟨rfl, fun hacc => absurd hacc.2 h3⟩
    · rw [if_neg h2]
      exact Or.inl ⟨rfl, fun _ => Nat.le_of_not_lt h2⟩
  · rw [if_neg h1]
    exact Or.inl ⟨rfl, fun hacc => absurd hacc.1 h1⟩

/-- Full characterization of the phrase scan: either nothing beat the
starting best (and every accepted phrase is at most as long), or the result
is an accepted phrase that strictly beats the starting best, every earlier
accepted phrase is strictly shorter, and every later one is at most as
long (first-of-maximal-length wins). -/
theorem scanGo_char (tok : Str → List Token) (target : Str) (tt : List Token) :
    ∀ (L : List Str) (b : Str × List Token) (p : Str) (bt : List Token),
      scanGo tok target tt L b = (p, bt) →
      ((p, bt) = b ∧
        ∀ q ∈ L, phraseAccepted tok target tt q → q.length ≤ b.1.length) ∨
      (∃ L1 L2, L = L1 ++ p :: L2 ∧ phraseAccepted tok target tt p ∧
        bt = tok p ∧ b.1.length < p.length ∧
        (∀ q ∈ L1, phraseAccepted tok target tt q → q.length < p.length) ∧
        (∀ q ∈ L2, phraseAccepted tok target tt q → q.length ≤ p.length)) := by
  intro L
  induction L with
  | nil =>
      intro b p bt h
      simp only [scanGo] at h
      exact Or.inl ⟨h.symm, by simp⟩
  | cons q0 rest ih =>
      intro b p bt h
      simp only [scanGo] at h
      rcases scanStep_cases tok target tt b q0 with ⟨heq, himp⟩ | ⟨heq, hacc0, hblen⟩
      · rw [heq] at h
        rcases ih b p bt h with ⟨hpb, hall⟩ | ⟨L1, L2, hsplit, haccp, hbt, hblen, hL1, hL2⟩
        · refine Or.inl ⟨hpb, ?_⟩
          intro q hq hacc
          rcases List.mem_cons.mp hq with rfl | hq2
          · exact himp hacc
          · exact hall q hq2 hacc
        · refine Or.inr ⟨q0 :: L1, L2, by rw [hsplit]; rfl, haccp, hbt, hblen, ?_, hL2⟩
          intro q hq hacc
          rcases List.mem_cons.mp hq with rfl | hq2
          · exact lt_of_le_of_lt (himp hacc) hblen
          · exact hL1 q hq2 hacc
      · rw [heq] at h
        rcases ih (q0, tok q0) p bt h with ⟨hpb, hall⟩ | ⟨L1, L2, hsplit, haccp, hbt, hblen2, hL1, hL2⟩
        · have hp : p = q0 := congrArg Prod.fst hpb
          have hbt0 : bt = tok q0 := congrArg Prod.snd hpb
          subst hp
          refine Or.inr ⟨[], rest, rfl, hacc0, hbt0, hblen, by simp, ?_⟩
          intro q hq hacc
          exact hall q hq hacc
        · refine Or.inr ⟨q0 :: L1, L2, by rw [hsplit]; rfl, haccp, hbt,
            lt_trans hblen hblen2, ?_, hL2⟩
          intro q hq hacc
          rcases List.mem_cons.mp hq with rfl | hq2
          · exact hblen2
          · exact hL1 q hq2 hacc

/-- Once the best match is the whole target, no phrase can displace it. -/
theorem scanGo_absorb (tok : Str → List Token) (target : Str)
    (tt : List Token) :
    ∀ (L : List Str) (bt : List Token),
      scanGo tok target tt L (target, bt) = (target, bt) := by
  intro L
  induction L with
  | nil => intro bt; rfl
  | cons q rest ih =>
      intro bt
      have hstep : scanStep tok target tt (target, bt) q = (target, bt) := by
        unfold scanStep
        by_cases h1 : q.isPrefixOf target = true
        · rw [if_pos h1]
          have hle : q.length ≤ target.length :=
            (List.isPrefixOf_iff_prefix.mp h1).length_le
          rw [if_neg (Nat.not_lt.mpr hle)]
        · rw [if_neg h1]
      simp only [scanGo, hstep]
      exact ih bt

/-- If the target itself is one of the phrases (and the token-alignment
check for it passes), the scan selects exactly the target. -/
theorem scanGo_reach (tok : Str → List Token) (target : Str) (tt : List Token)
    (hck : tt.take (tok target).length = tok target) :
    ∀ (L : List Str) (b : Str × List Token),
      b.1.isPrefixOf target = true → b.1.length < target.length →
      target ∈ L →
      scanGo tok target tt L b = (target, tok target) := by
  intro L
  induction L with
  | nil => intro b _ _ hmem; simp at hmem
  | cons q rest ih =>
      intro b hbp hblen hmem
      by_cases hq : q = target
      · have hstep : scanStep tok target tt b q = (target, tok target) := by
          unfold scanStep
          rw [hq]
          rw [if_pos (List.isPrefixOf_iff_prefix.mpr (List.prefix_refl target)),
            if_pos hblen, if_pos hck]
        simp only [scanGo, hstep]
        exact scanGo_absorb tok target tt rest (tok target)
      · have hmem2 : target ∈ rest := by
          rcases List.mem_cons.mp hmem with h | h
          · exact absurd h.symm hq
          · exact h
        rcases scanStep_cases tok target tt b q with ⟨heq, _⟩ | ⟨heq, hacc, _⟩
        · simp only [scanGo, heq]
          exact ih b hbp hblen hmem2
        · simp only [scanGo, heq]
          refine ih (q, tok q) hacc.1 ?_ hmem2
          have hqp : q <+: target := List.isPrefixOf_iff_prefix.mp hacc.1
          exact prefix_length_lt_of_ne hqp hq

/-- If no phrase is accepted the scan leaves the best match untouched. -/
theorem scanGo_noaccept (tok : Str → List Token) (target : Str)
    (tt : List Token) :
    ∀ (L : List Str) (b : Str × List Token),
      (∀ q ∈ L, ¬ phraseAccepted tok target tt q) →
      scanGo tok target tt L b = b := by
  intro L
  induction L with
  | nil => intro b _; rfl
  | cons q rest ih =>
      intro b hall
      rcases scanStep_cases tok target tt b q with ⟨heq, _⟩ | ⟨_, hacc, _⟩
      · simp only [scanGo, heq]
        exact ih b fun q2 hq2 => hall q2 (List.mem_cons_of_mem _ hq2)
      · exact absurd hacc (hall q (List.mem_cons_self _ _))

/-- The seeded committed tokens are a prefix of the target tokens. -/
theorem initialSeed_prefix (cfg : Config) (target : Str) (tt : List Token)
    (st0 : SimState) (h : initialSeed cfg target tt = some st0) :
    st0.text_tokens <+: tt := by
  unfold initialSeed at h
  rcases hscan : scanPhrases cfg.tokenize target tt with ⟨p, bt⟩
  rw [hscan] at h
  by_cases hbt : bt ≠ []
  · rw [if_pos hbt] at h
    cases h
    show bt <+: tt
    rcases scanGo_char cfg.tokenize target tt INITIAL_PHRASES_JA ([], []) p bt
        hscan with ⟨hpb, _⟩ | ⟨_, _, _, hacc, hbteq, _⟩
    · exact absurd (congrArg Prod.snd hpb) hbt
    · rw [hbteq, ← hacc.2]
      exact List.take_prefix _ _
  · rw [if_neg hbt] at h
    by_cases htt : tt ≠ []
    · rw [if_pos htt] at h
      cases h
      show [tt.getD 0 []] <+: tt
      have h0 : 0 < tt.length := by
        cases tt with
        | nil => exact absurd rfl htt
        | cons a l => simp
      have h1 : tt.take 1 = [tt.getD 0 []] := by
        rw [take_succ_getD tt 0 [] h0]
        rfl
      rw [← h1]
      exact List.take_prefix _ _
    · rw [if_neg htt] at h
      cases h

/-- With an always-empty oracle the main loop walks the remaining target
tokens one by one through the phonetic fallback: each costs its full reading
length and counts one fallback event. -/
theorem runLoop_empty_oracle (cfg : Config) (target : Str) (tt : List Token)
    (hs : ∀ s, cfg.sentSugg s = []) (hw : ∀ s, cfg.wordSugg s = []) :
    ∀ (fuel : Nat) (st : SimState), st.text_tokens <+: tt →
      tt.length - st.text_tokens.length < fuel →
      runLoop cfg target tt fuel st =
        ⟨tt, st.total_clicks +
            ((tt.drop st.text_tokens.length).map
              (fun t => (cfg.yomi t).length)).sum,
          st.sentence_suggestion_used, st.word_suggestion_used,
          st.fallback_token_event_count +
            (tt.length - st.text_tokens.length)⟩ := by
  intro fuel
  induction fuel with
  | zero => intro st _ hf; omega
  | succ fuel ih =>
      intro st hpre hf
      obtain ⟨txt, clk, sc, wc, fc⟩ := st
      simp only at hpre hf ⊢
      by_cases heq : txt = tt
      · subst heq
        simp only [runLoop, if_pos rfl]
        simp [List.drop_length, Nat.sub_self]
      · have hlen : txt.length < tt.length := prefix_length_lt_of_ne hpre heq
        have hsent : selectSentence cfg.tokenize tt txt
            (sentence_suggestions cfg (joinTokens txt)) = none := by
          unfold sentence_suggestions
          rw [hs (joinTokens txt)]
          rfl
        have hword : selectWord cfg.tokenize tt txt
            (cfg.wordSugg (joinTokens txt)) = none := by
          rw [hw (joinTokens txt)]
          rfl
        have hfb : fbGo cfg.wordSugg (joinTokens txt) (tt.getD txt.length [])
            (cfg.yomi (tt.getD txt.length [])) [] 0 =
            ((cfg.yomi (tt.getD txt.length [])).length, false) := by
          have := fbGo_not_hit cfg.wordSugg (joinTokens txt)
            (tt.getD txt.length []) (cfg.yomi (tt.getD txt.length [])) [] 0
            (fun j _ _ => by rw [hw]; rfl)
          simpa using this
        have hbody : loopBody cfg target tt ⟨txt, clk, sc, wc, fc⟩ =
            (⟨txt ++ [tt.getD txt.length []],
              clk + (cfg.yomi (tt.getD txt.length [])).length,
              sc, wc, fc + 1⟩, true) := by
          unfold loopBody
          simp only [hsent, hword, if_pos hlen]
          unfold fallbackStep
          simp only [hfb]
          rfl
        simp only [runLoop, if_neg heq, hbody]
        have hpre2 : txt ++ [tt.getD txt.length []] <+: tt :=
          prefix_append_next txt tt hpre hlen
        have hf2 : tt.length - (txt ++ [tt.getD txt.length []]).length < fuel := by
          simp only [List.length_append, List.length_cons, List.length_nil]
          omega
        rw [ih ⟨txt ++ [tt.getD txt.length []],
          clk + (cfg.yomi (tt.getD txt.length [])).length, sc, wc, fc + 1⟩
          hpre2 hf2]
        simp only [List.length_append, List.length_cons, List.length_nil,
          Nat.zero_add]
        have e1 : clk + (cfg.yomi (tt.getD txt.length [])).length +
            ((tt.drop (txt.length + 1)).map
              (fun t => (cfg.yomi t).length)).sum =
            clk + ((tt.drop txt.length).map
              (fun t => (cfg.yomi t).length)).sum := by
          rw [drop_eq_getD_cons tt txt.length [] hlen]
          simp only [List.map_cons, List.sum_cons]
          omega
        have e2 : fc + 1 + (tt.length - (txt.length + 1)) =
            fc + (tt.length - txt.length) := by omega
        rw [e1, e2]
        exact if_pos trivial

/-! ### Claim theorems -/

/-- Claim C1: in every advancing step, a sentence-mode candidate is accepted
only if its tokenization's longest common token-prefix with the target token
sequence is strictly longer than the committed tokens and is the longest among
the at most two retained candidates of that step; on acceptance the committed
tokens become exactly that common prefix at a cost of exactly one click. -/
theorem C1_sentence_acceptance (cfg : Config) (target : Str) (tt : List Token)
    (st : SimState) (sel : List Token) (hpre : st.text_tokens <+: tt)
    (hsel : selectSentence cfg.tokenize tt st.text_tokens
      (sentence_suggestions cfg (joinTokens st.text_tokens)) = some sel) :
    (∃ c ∈ sentence_suggestions cfg (joinTokens st.text_tokens),
      sel = commonPrefix tt (cfg.tokenize c)) ∧
    st.text_tokens.length < sel.length ∧
    (∀ c ∈ sentence_suggestions cfg (joinTokens st.text_tokens),
      (commonPrefix tt (cfg.tokenize c)).length ≤ sel.length) ∧
    (sentence_suggestions cfg (joinTokens st.text_tokens)).length ≤
      NUM_SENTENCE_SUGGESTIONS ∧
    loopBody cfg target tt st =
      (⟨sel, st.total_clicks + 1, st.sentence_suggestion_used + 1,
        st.word_suggestion_used, st.fallback_token_event_count⟩,
       if joinTokens sel = target then false else true) := by
  have hsel2 := hsel
  unfold selectSentence at hsel2
  obtain ⟨h1, h2, _, _, h5⟩ := selectSentenceGo_spec cfg.tokenize tt
    st.text_tokens (sentence_suggestions cfg (joinTokens st.text_tokens))
    none st.text_tokens.length (le_refl _) (fun s0 hh => by cases hh) sel hsel2
  refine ⟨?_, h2, ?_, ?_, ?_⟩
  · rcases h5 with h5 | h5
    · exact h5
    · cases h5
  · intro c hc
    have hmax := selectSentenceGo_max cfg.tokenize tt st.text_tokens hpre
      (sentence_suggestions cfg (joinTokens st.text_tokens)) none
      st.text_tokens.length (le_refl _) c hc
    rw [← h1] at hmax
    exact hmax
  · unfold sentence_suggestions
    exact List.length_take_le _ _
  · simp only [loopBody, hsel]
    by_cases hj : joinTokens sel = target
    · rw [if_pos hj, if_pos hj]
    · rw [if_neg hj, if_neg hj]

/-- Witness for C1: with `cfg1` the single suggested sentence `1,2,3`
advances the committed tokens from one token to all three at one click. -/
theorem C1_sentence_acceptance_witness :
    (∃ c ∈ sentence_suggestions cfg1 (joinTokens [[1]]),
      ([[1], [2], [3]] : List Token) = commonPrefix [[1], [2], [3]]
        (cfg1.tokenize c)) ∧
    (([[1]] : List Token)).length < ([[1], [2], [3]] : List Token).length ∧
    (∀ c ∈ sentence_suggestions cfg1 (joinTokens [[1]]),
      (commonPrefix [[1], [2], [3]] (cfg1.tokenize c)).length ≤
        ([[1], [2], [3]] : List Token).length) ∧
    (sentence_suggestions cfg1 (joinTokens [[1]])).length ≤
      NUM_SENTENCE_SUGGESTIONS ∧
    loopBody cfg1 [1, 2, 3] [[1], [2], [3]] ⟨[[1]], 2, 0, 1, 0⟩ =
      (⟨[[1], [2], [3]], 3, 1, 1, 0⟩, false) :=
  C1_sentence_acceptance cfg1 [1, 2, 3] [[1], [2], [3]] ⟨[[1]], 2, 0, 1, 0⟩
    [[1], [2], [3]] ⟨[[2], [3]], rfl⟩ (by decide)

/-- Claim C2 (amended): a word-mode candidate is accepted exactly when its
tokenization is non-empty, fits inside the target, and equals the target
slice aligned right after the committed tokens; the first accepted candidate
in oracle order wins at a cost of exactly one click, extending the committed
tokens by the candidate's tokens. -/
theorem C2_word_acceptance (cfg : Config) (target : Str) (tt : List Token)
    (st : SimState) :
    (∀ w, selectWord cfg.tokenize tt st.text_tokens
        (cfg.wordSugg (joinTokens st.text_tokens)) = some w →
      (∃ L1 c L2, cfg.wordSugg (joinTokens st.text_tokens) = L1 ++ c :: L2 ∧
        wordAccepts cfg.tokenize tt st.text_tokens c ∧ w = cfg.tokenize c ∧
        ∀ c2 ∈ L1, ¬ wordAccepts cfg.tokenize tt st.text_tokens c2) ∧
      (selectSentence cfg.tokenize tt st.text_tokens
          (sentence_suggestions cfg (joinTokens st.text_tokens)) = none →
        st.text_tokens.length < tt.length →
        loopBody cfg target tt st =
          (⟨st.text_tokens ++ w, st.total_clicks + 1,
            st.sentence_suggestion_used, st.word_suggestion_used + 1,
            st.fallback_token_event_count⟩,
           if joinTokens (st.text_tokens ++ w) = target then false
           else true))) ∧
    (selectWord cfg.tokenize tt st.text_tokens
        (cfg.wordSugg (joinTokens st.text_tokens)) = none ↔
      ∀ c ∈ cfg.wordSugg (joinTokens st.text_tokens),
        ¬ wordAccepts cfg.tokenize tt st.text_tokens c) := by
  constructor
  · intro w hw
    constructor
    · exact selectWord_some _ _ _ _ w hw
    · intro hsent hlen
      simp only [loopBody, hsent, if_pos hlen, hw]
      by_cases hj : joinTokens (st.text_tokens ++ w) = target
      · rw [if_pos hj, if_pos hj]
      · rw [if_neg hj, if_neg hj]
  · exact selectWord_none _ _ _ _

/-- Counterexample to C2 as stated: the empty-string candidate (which
`parse_response` can produce from a line consisting of a bare numbering)
tokenizes to the empty token sequence, which is exactly equal to the
corresponding (empty) target slice aligned after the committed tokens, yet
it is never accepted: the code skips candidates with empty tokenizations. -/
theorem C2_word_acceptance_counterexample :
    tokC ([] : Str) = [] ∧
    ([[1]] : List Token).length + (tokC ([] : Str)).length ≤
      ([[1], [2]] : List Token).length ∧
    (([[1], [2]] : List Token).drop ([[1]] : List Token).length).take
      (tokC ([] : Str)).length = tokC ([] : Str) ∧
    selectWord tokC [[1], [2]] [[1]] [[]] = none := by decide

/-- Witness for C2 at `cfgC2`: the lone (empty) candidate is rejected, in
agreement with the acceptance characterization. -/
theorem C2_word_acceptance_witness :
    selectWord cfgC2.tokenize [[1], [2]] [[1]]
      (cfgC2.wordSugg (joinTokens [[1]])) = none :=
  ((C2_word_acceptance cfgC2 [1, 2] [[1], [2]] ⟨[[1]], 1, 0, 0, 0⟩).2).mpr
    (by decide)

/-- Claim C3: in the direct phonetic fallback, if the first oracle hit on the
next required target token comes after `k` typed reading characters, the
token is committed at exactly `k + 1` clicks (counted as a word-suggestion
event) and the character loop stops; if the whole reading of length `n` is
typed without a hit, the token is committed at exactly `n` clicks as a
fallback event. -/
theorem C3_fallback_costs (cfg : Config) (tt : List Token) (st : SimState) :
    (∀ k, 1 ≤ k →
      k ≤ (cfg.yomi (tt.getD st.text_tokens.length [])).length →
      fallbackHit cfg tt st k →
      (∀ j, j < k → 1 ≤ j → ¬ fallbackHit cfg tt st j) →
      fallbackStep cfg tt st =
        ⟨st.text_tokens ++ [tt.getD st.text_tokens.length []],
          st.total_clicks + (k + 1), st.sentence_suggestion_used,
          st.word_suggestion_used + 1, st.fallback_token_event_count⟩) ∧
    ((∀ j, 1 ≤ j →
        j ≤ (cfg.yomi (tt.getD st.text_tokens.length [])).length →
        ¬ fallbackHit cfg tt st j) →
      fallbackStep cfg tt st =
        ⟨st.text_tokens ++ [tt.getD st.text_tokens.length []],
          st.total_clicks +
            (cfg.yomi (tt.getD st.text_tokens.length [])).length,
          st.sentence_suggestion_used, st.word_suggestion_used,
          st.fallback_token_event_count + 1⟩) := by
  constructor
  · intro k hk1 hkle hhit hmiss
    have hfb : fbGo cfg.wordSugg (joinTokens st.text_tokens)
        (tt.getD st.text_tokens.length [])
        (cfg.yomi (tt.getD st.text_tokens.length [])) [] 0 = (0 + k + 1, true) := by
      apply fbGo_first_hit cfg.wordSugg (joinTokens st.text_tokens)
        (tt.getD st.text_tokens.length [])
        (cfg.yomi (tt.getD st.text_tokens.length [])) [] 0 k hk1 hkle
      · unfold fallbackHit at hhit
        simpa using hhit
      · intro j hj h1j
        have := hmiss j hj h1j
        unfold fallbackHit at this
        simp only [List.nil_append]
        rcases hb : ((cfg.wordSugg (joinTokens st.text_tokens ++
            (cfg.yomi (tt.getD st.text_tokens.length [])).take j)).any
          (fun s => s == tt.getD st.text_tokens.length [])) with _ | _
        · rfl
        · exact absurd hb this
    simp only [fallbackStep, hfb]
    have : (0 + k + 1 : Nat) = k + 1 := by omega
    rw [this]
    exact if_pos trivial
  · intro hmiss
    have hfb : fbGo cfg.wordSugg (joinTokens st.text_tokens)
        (tt.getD st.text_tokens.length [])
        (cfg.yomi (tt.getD st.text_tokens.length [])) [] 0 =
        (0 + (cfg.yomi (tt.getD st.text_tokens.length [])).length, false) := by
      apply fbGo_not_hit
      intro j hj h1j
      have := hmiss j h1j hj
      unfold fallbackHit at this
      simp only [List.nil_append]
      rcases hb : ((cfg.wordSugg (joinTokens st.text_tokens ++
          (cfg.yomi (tt.getD st.text_tokens.length [])).take j)).any
        (fun s => s == tt.getD st.text_tokens.length [])) with _ | _
      · rfl
      · exact absurd hb this
    simp only [fallbackStep, hfb]
    have : (0 + (cfg.yomi (tt.getD st.text_tokens.length [])).length : Nat) =
        (cfg.yomi (tt.getD st.text_tokens.length [])).length := by omega
    rw [this]
    exact if_neg (by simp)

/-- Witness for C3 at `cfg3`: the oracle hits after one typed character, so
the token costs two clicks and is counted as a word suggestion. -/
theorem C3_fallback_costs_witness :
    fallbackStep cfg3 [[9]] ⟨[], 0, 0, 0, 0⟩ = ⟨[[9]], 2, 0, 1, 0⟩ :=
  (C3_fallback_costs cfg3 [[9]] ⟨[], 0, 0, 0, 0⟩).1 1 (by decide) (by decide)
    (by decide) (by intro j hj h1j hhit; omega)

/-- An empty target token list can only seed the zero result. -/
theorem initialSeed_nil (cfg : Config) (target : Str) :
    initialSeed cfg target [] = none := by
  rcases hscan : scanPhrases cfg.tokenize target [] with ⟨p, bt⟩
  have hbt : bt = [] := by
    rcases scanGo_char cfg.tokenize target [] INITIAL_PHRASES_JA ([], []) p bt
        hscan with ⟨hpb, _⟩ | ⟨_, _, _, hacc, hbteq, _⟩
    · exact congrArg Prod.snd hpb
    · have h2 := hacc.2
      simp only [List.take_nil] at h2
      rw [hbteq, ← h2]
  simp only [initialSeed, hscan, hbt]
  simp

/-- Counterexample to C4 as stated: a target equal to the initial phrase
`はい` simulates to exactly one click, but the word-suggestion count is 1,
not 0: the initial-phrase acceptance is tallied as a word-suggestion event
(source line 282). -/
theorem C4_initial_phrase_counterexample :
    ([0x306F, 0x3044] : Str) ∈ INITIAL_PHRASES_JA ∧
    simulate_japanese cfgJ [0x306F, 0x3044] = [1, 0, 1, 0, 2] ∧
    (simulate_japanese cfgJ [0x306F, 0x3044]).getD 2 0 ≠ 0 := by decide

/-- Claim C4 (amended): for every target equal to an initial phrase (with a
non-empty tokenization), the simulation returns total clicks exactly 1, zero
sentence suggestions, zero fallback events, and exactly one word-suggestion
event: the accepted initial phrase is recorded as a word suggestion. -/
theorem C4_initial_phrase_exact (cfg : Config) (target : Str)
    (hmem : target ∈ INITIAL_PHRASES_JA) (htok : cfg.tokenize target ≠ []) :
    simulate_japanese cfg target =
      [1, 0, 1, 0, (joinTokens (cfg.tokenize target)).length] := by
  have hne : target ≠ [] := by
    have hall : ∀ p ∈ INITIAL_PHRASES_JA, p ≠ ([] : Str) := by decide
    exact hall target hmem
  have h1 : targetTokensOf cfg target = cfg.tokenize target := by
    show (if cfg.tokenize target = [] ∧ target ≠ [] then
      target.map (fun c => [c]) else cfg.tokenize target) = cfg.tokenize target
    exact if_neg (fun hc => htok hc.1)
  have hscan : scanPhrases cfg.tokenize target (cfg.tokenize target) =
      (target, cfg.tokenize target) :=
    scanGo_reach cfg.tokenize target (cfg.tokenize target)
      (by rw [List.take_length]) INITIAL_PHRASES_JA ([], [])
      (by show List.isPrefixOf [] target = true
          exact List.isPrefixOf_nil_left)
      (List.length_pos.mpr hne) hmem
  have hseed : initialSeed cfg target (cfg.tokenize target) =
      some ⟨cfg.tokenize target, 1, 0, 1, 0⟩ := by
    simp only [initialSeed, hscan]
    rw [if_pos htok]
  have hrun : runLoop cfg target (cfg.tokenize target)
      ((cfg.tokenize target).length + 1) ⟨cfg.tokenize target, 1, 0, 1, 0⟩ =
      ⟨cfg.tokenize target, 1, 0, 1, 0⟩ := by
    simp only [runLoop]
    simp
  simp only [simulate_japanese]
  rw [h1, if_neg htok]
  simp only [hseed]
  rw [hrun]

/-- Witness for C4 (amended) at `cfgJ` with the phrase `いいえ`. -/
theorem C4_initial_phrase_exact_witness :
    simulate_japanese cfgJ [0x3044, 0x3044, 0x3048] = [1, 0, 1, 0, 3] :=
  C4_initial_phrase_exact cfgJ [0x3044, 0x3044, 0x3048] (by decide) (by decide)

/-- Claim C5: the initial-phrase matcher accepts a phrase only if the target
string starts with it and the phrase's tokenization is a token-sequence
prefix of the target's; among accepted phrases it selects one of greatest
string length, ties broken by list order (first found wins: all earlier
accepted phrases are strictly shorter, all later ones no longer); and when no
phrase matches and the target tokens are non-empty the seed is exactly the
target's first token at a cost of exactly 2 clicks. -/
theorem C5_initial_matcher (cfg : Config) (target : Str) (tt : List Token) :
    (∀ p bt, scanPhrases cfg.tokenize target tt = (p, bt) → p ≠ [] →
      phraseAccepted cfg.tokenize target tt p ∧ bt = cfg.tokenize p ∧
      ∃ L1 L2, INITIAL_PHRASES_JA = L1 ++ p :: L2 ∧
        (∀ q ∈ L1, phraseAccepted cfg.tokenize target tt q →
          q.length < p.length) ∧
        (∀ q ∈ L2, phraseAccepted cfg.tokenize target tt q →
          q.length ≤ p.length)) ∧
    ((∀ q ∈ INITIAL_PHRASES_JA, ¬ phraseAccepted cfg.tokenize target tt q) →
      tt ≠ [] →
      initialSeed cfg target tt = some ⟨[tt.getD 0 []], 2, 0, 0, 1⟩) ∧
    (target ≠ [] → targetTokensOf cfg target ≠ []) := by
  refine ⟨?_, ?_, ?_⟩
  · intro p bt hscan hp
    rcases scanGo_char cfg.tokenize target tt INITIAL_PHRASES_JA ([], []) p bt
        hscan with ⟨hpb, _⟩ | ⟨L1, L2, hsplit, hacc, hbt, _, hL1, hL2⟩
    · exact absurd (congrArg Prod.fst hpb) hp
    · exact ⟨hacc, hbt, L1, L2, hsplit, hL1, hL2⟩
  · intro hnone htt
    have hscan : scanPhrases cfg.tokenize target tt = ([], []) :=
      scanGo_noaccept cfg.tokenize target tt INITIAL_PHRASES_JA ([], []) hnone
    unfold initialSeed
    rw [hscan]
    rw [if_neg (fun hx => hx rfl)]
    rw [if_pos htt]
  · intro hne
    unfold targetTokensOf
    by_cases hc : cfg.tokenize target = [] ∧ target ≠ []
    · rw [if_pos hc]
      cases target with
      | nil => exact absurd rfl hne
      | cons a l => simp
    · rw [if_neg hc]
      intro hn
      exact hc ⟨hn, hne⟩

/-- Witness for C5: `はい` is accepted for the target `はい`, and for a
target matching no phrase the seed is its first token at 2 clicks. -/
theorem C5_initial_matcher_witness :
    phraseAccepted cfgJ.tokenize [0x306F, 0x3044] [[0x306F, 0x3044]]
      [0x306F, 0x3044] ∧
    initialSeed cfgJ [65] [[65]] = some ⟨[[65]], 2, 0, 0, 1⟩ :=
  ⟨(((C5_initial_matcher cfgJ [0x306F, 0x3044] [[0x306F, 0x3044]]).1
      [0x306F, 0x3044] [[0x306F, 0x3044]] (by decide) (by decide))).1,
    (C5_initial_matcher cfgJ [65] [[65]]).2.1 (by decide) (by decide)⟩

/-- Claim C6 (amended): with an oracle that always returns empty suggestion
lists, the simulation terminates purely through the seed plus direct phonetic
fallback: total clicks are the seed cost plus the sum of the remaining target
tokens' reading lengths, and each remaining token adds one fallback event.
(The baseline-equality part of the claim is refuted separately.) -/
theorem C6_empty_oracle (cfg : Config) (target : Str) (st0 : SimState)
    (hs : ∀ s, cfg.sentSugg s = []) (hw : ∀ s, cfg.wordSugg s = [])
    (h0 : initialSeed cfg target (targetTokensOf cfg target) = some st0) :
    simulate_japanese cfg target =
      [st0.total_clicks +
          (((targetTokensOf cfg target).drop st0.text_tokens.length).map
            (fun t => (cfg.yomi t).length)).sum,
        st0.sentence_suggestion_used, st0.word_suggestion_used,
        st0.fallback_token_event_count +
          ((targetTokensOf cfg target).length - st0.text_tokens.length),
        (joinTokens (targetTokensOf cfg target)).length] := by
  have htt : targetTokensOf cfg target ≠ [] := by
    intro hnil
    rw [hnil, initialSeed_nil] at h0
    cases h0
  have hpre := initialSeed_prefix cfg target (targetTokensOf cfg target) st0 h0
  have hrun := runLoop_empty_oracle cfg target (targetTokensOf cfg target)
    hs hw ((targetTokensOf cfg target).length + 1) st0 hpre
    (Nat.lt_succ_of_le (Nat.sub_le _ _))
  simp only [simulate_japanese]
  rw [if_neg htt]
  simp only [h0]
  rw [hrun]

/-- Counterexample to the baseline-equality part of C6: with the silent
oracle, the target `はい` (an initial phrase) simulates to 1 total click,
while the aggregator's phonetic-keystroke baseline for the same target is its
whole-sentence reading length 2. -/
theorem C6_empty_oracle_counterexample :
    simulate_japanese cfgJ [0x306F, 0x3044] = [1, 0, 1, 0, 2] ∧
    total_keyboard_input_of sentYomiId [[0x306F, 0x3044]] = 2 ∧
    (simulate_japanese cfgJ [0x306F, 0x3044]).getD 0 0 ≠
      total_keyboard_input_of sentYomiId [[0x306F, 0x3044]] := by decide

/-- Witness for C6 (amended) at `cfg6`: the target `AB` seeds with `A` at 2
clicks and types `B` through the fallback for one more click. -/
theorem C6_empty_oracle_witness :
    simulate_japanese cfg6 [65, 66] = [3, 0, 0, 2, 2] :=
  C6_empty_oracle cfg6 [65, 66] ⟨[[65]], 2, 0, 0, 1⟩ (fun _ => rfl)
    (fun _ => rfl) (by decide)

/-- The fallback step always commits exactly the next required target
token. -/
theorem fallbackStep_text (cfg : Config) (tt : List Token) (st : SimState) :
    (fallbackStep cfg tt st).text_tokens =
      st.text_tokens ++ [tt.getD st.text_tokens.length []] := by
  simp only [fallbackStep]
  split <;> rfl

/-- Claim C7: the committed token sequence is always a prefix of the target
tokens and grows monotonically: every loop iteration maps a prefix state to
an extension of it that is still a prefix, and the seeded state is a
prefix. -/
theorem C7_typedstate_invariant (cfg : Config) (target : Str)
    (tt : List Token) (st : SimState) (h : st.text_tokens <+: tt) :
    st.text_tokens <+: (loopBody cfg target tt st).1.text_tokens ∧
    (loopBody cfg target tt st).1.text_tokens <+: tt ∧
    (∀ st0, initialSeed cfg target tt = some st0 →
      st0.text_tokens <+: tt) := by
  suffices hmain : st.text_tokens <+: (loopBody cfg target tt st).1.text_tokens ∧
      (loopBody cfg target tt st).1.text_tokens <+: tt by
    exact ⟨hmain.1, hmain.2,
      fun st0 h0 => initialSeed_prefix cfg target tt st0 h0⟩
  rcases hsel : selectSentence cfg.tokenize tt st.text_tokens
      (sentence_suggestions cfg (joinTokens st.text_tokens)) with _ | sel
  · by_cases hlen : st.text_tokens.length < tt.length
    · rcases hw : selectWord cfg.tokenize tt st.text_tokens
          (cfg.wordSugg (joinTokens st.text_tokens)) with _ | w
      · have htext : (loopBody cfg target tt st).1.text_tokens =
            st.text_tokens ++ [tt.getD st.text_tokens.length []] := by
          simp only [loopBody, hsel, if_pos hlen, hw]
          exact fallbackStep_text cfg tt st
        rw [htext]
        exact ⟨⟨[tt.getD st.text_tokens.length []], rfl⟩,
          prefix_append_next st.text_tokens tt h hlen⟩
      · have htext : (loopBody cfg target tt st).1.text_tokens =
            st.text_tokens ++ w := by
          simp only [loopBody, hsel, if_pos hlen, hw]
          rw [ite_pair_fst]
        rw [htext]
        obtain ⟨L1, c, L2, _, hacc, hweq, _⟩ := selectWord_some _ _ _ _ w hw
        refine ⟨⟨w, rfl⟩, ?_⟩
        have hps := prefix_append_slice st.text_tokens tt
          (cfg.tokenize c).length h
        rw [hacc.2.2] at hps
        rw [hweq]
        exact hps
    · have htext : (loopBody cfg target tt st).1 = st := by
        simp only [loopBody, hsel, if_neg hlen]
      rw [htext]
      exact ⟨List.prefix_refl _, h⟩
  · have htext : (loopBody cfg target tt st).1.text_tokens = sel := by
      simp only [loopBody, hsel]
      rw [ite_pair_fst]
    rw [htext]
    unfold selectSentence at hsel
    obtain ⟨_, _, h3, h4, _⟩ := selectSentenceGo_spec cfg.tokenize tt
      st.text_tokens _ none st.text_tokens.length (le_refl _)
      (fun s0 hh => by cases hh) sel hsel
    refine ⟨⟨sel.drop st.text_tokens.length, ?_⟩, h3⟩
    have h5 := List.take_append_drop st.text_tokens.length sel
    rw [h4] at h5
    exact h5

/-- Witness for C7 at `cfg6`: one fallback iteration extends the committed
tokens and keeps them a prefix of the target tokens. -/
theorem C7_typedstate_invariant_witness :
    ([[65]] : List Token) <+:
      (loopBody cfg6 [65, 66] [[65], [66]]
        ⟨[[65]], 2, 0, 0, 1⟩).1.text_tokens ∧
    (loopBody cfg6 [65, 66] [[65], [66]]
      ⟨[[65]], 2, 0, 0, 1⟩).1.text_tokens <+: [[65], [66]] :=
  ⟨(C7_typedstate_invariant cfg6 [65, 66] [[65], [66]] ⟨[[65]], 2, 0, 0, 1⟩
      ⟨[[66]], rfl⟩).1,
    (C7_typedstate_invariant cfg6 [65, 66] [[65], [66]] ⟨[[65]], 2, 0, 0, 1⟩
      ⟨[[66]], rfl⟩).2.1⟩

/-- Claim C8 is refuted by the code: `main` accumulates the per-line
variables outside the `if stats is not None` guard, so a failed second line
re-adds the first line's statistics (totals double instead of excluding the
failed line), and a failed first line dereferences unassigned variables and
kills the batch.  Evaluated at a two-line batch whose second line fails. -/
theorem C8_failed_line_corrupts :
    mainAgg [some [3, 1, 0, 0, 5], none] = some ⟨10, 6, 2, 0, 0⟩ ∧
    specAggOfSuccesses [some [3, 1, 0, 0, 5], none] = ⟨5, 3, 1, 0, 0⟩ ∧
    mainAgg [some [3, 1, 0, 0, 5], none] ≠
      some (specAggOfSuccesses [some [3, 1, 0, 0, 5], none]) ∧
    mainAgg [none] = none := by decide

/-- Claim C9: an oracle response that is empty, fails to parse as JSON, or
does not have the expected messages-text shape parses to the empty candidate
list: exactly the effect of an empty response. -/
theorem C9_malformed_response (jp : Str → Option Json) (response : Str)
    (h : response = [] ∨ jp response = none ∨
      ∃ j, jp response = some j ∧ messagesText j = none) :
    parse_response jp response = [] := by
  unfold parse_response
  rcases h with h | h | ⟨j, hj, hshape⟩
  · rw [if_pos h]
  · by_cases he : response = []
    · rw [if_pos he]
    · rw [if_neg he]
      simp only [h]
  · by_cases he : response = []
    · rw [if_pos he]
    · rw [if_neg he]
      simp only [hj, hshape]

/-- Witness for C9: an unparseable response yields no candidates. -/
theorem C9_malformed_response_witness :
    parse_response (fun _ => none) [48] = [] :=
  C9_malformed_response (fun _ => none) [48] (Or.inr (Or.inl rfl))

/-- Claim C10: a whitespace-only token has the empty reading, and a token
whose reading is empty is committed by the phonetic fallback at a cost of
exactly 0 clicks while still counting one fallback (direct-input) event. -/
theorem C10_empty_reading (cfg : Config) (tt : List Token) (st : SimState)
    (mp : Str → Str) (ws : Str) (hws : stripS ws = [])
    (hy : cfg.yomi (tt.getD st.text_tokens.length []) = []) :
    get_yomigana mp ws = some [] ∧
    fallbackStep cfg tt st =
      ⟨st.text_tokens ++ [tt.getD st.text_tokens.length []],
        st.total_clicks, st.sentence_suggestion_used,
        st.word_suggestion_used, st.fallback_token_event_count + 1⟩ := by
  constructor
  · unfold get_yomigana
    rw [if_pos hws]
  · simp only [fallbackStep, hy]
    rfl

/-- Witness for C10: the one-space token reads as the empty string and is
committed at zero clicks as one fallback event. -/
theorem C10_empty_reading_witness :
    get_yomigana (fun s => s) [32] = some [] ∧
    fallbackStep cfgW [[32]] ⟨[], 0, 0, 0, 0⟩ = ⟨[[32]], 0, 0, 0, 1⟩ :=
  C10_empty_reading cfgW [[32]] ⟨[], 0, 0, 0, 0⟩ (fun s => s) [32]
    (by decide) (by decide)

end PV
